import Mathlib

set_option maxRecDepth 8192

/-!
Verification of the scatac-barcode-splitter repository.

Strings from the Rust source (headers, sequences, qualities) are modelled as
`List Char`; all data handled by the claims is ASCII, so one `Char` stands
for one byte.  `src/src/main.rs` is embedded in namespace `Bin`, the library
`src/src/lib.rs` in namespace `Lib`.  Fallible code (Rust panics and I/O
framing errors) is embedded with `Except Unit`.
-/

namespace Scatac

/-- Record model from `src/src/main.rs` (struct FastqRecord, lines 44-50). -/
structure FastqRecord where
  header : List Char
  sequence : List Char
  plus : List Char
  quality : List Char
deriving DecidableEq, Repr

/-- Triple model from `src/src/main.rs` (struct ProcessedRecord, lines 189-193). -/
structure ProcessedRecord where
  r1_out : FastqRecord
  r2_out : FastqRecord
  r3_out : FastqRecord
deriving DecidableEq, Repr

/-- Rust `header.ends_with("/1") || header.ends_with("/2")`
(the test guarding the suffix strip in both sources). -/
def endsWithPair (h : List Char) : Bool :=
  decide (h.drop (h.length - 2) = ['/', '1']) || decide (h.drop (h.length - 2) = ['/', '2'])

/-- Embeds `extract_base_header` — identical in `src/src/main.rs` lines 94-100
and `src/src/lib.rs` lines 21-23: strip a trailing `/1` or `/2` if present. -/
def extract_base_header (h : List Char) : List Char :=
  if endsWithPair h then h.take (h.length - 2) else h

namespace Bin

/-- Embeds `complement_base` from `src/src/main.rs` lines 75-84:
match on the ASCII-uppercased character; the default arm returns the
ORIGINAL character unchanged. -/
def complement_base (base : Char) : Char :=
  match base.toUpper with
  | 'A' => 'T'
  | 'T' => 'A'
  | 'G' => 'C'
  | 'C' => 'G'
  | 'N' => 'N'
  | _ => base

/-- Embeds `reverse_complement` from `src/src/main.rs` lines 86-92:
reverse the characters, then complement each. -/
def reverse_complement (sequence : List Char) : List Char :=
  sequence.reverse.map complement_base

end Bin

namespace Lib

/-- The per-byte closure inside `reverse_complement` of `src/src/lib.rs`
lines 10-18: the default arm maps to `N`. -/
def complement_byte (b : Char) : Char :=
  match b.toUpper with
  | 'A' => 'T'
  | 'T' => 'A'
  | 'G' => 'C'
  | 'C' => 'G'
  | _ => 'N'

/-- Embeds `reverse_complement` from `src/src/lib.rs` lines 10-18. -/
def reverse_complement (seq : List Char) : List Char :=
  seq.reverse.map complement_byte

end Lib

/-- Rust byte-slice `s[a..b]` on a string: returns the slice when the bounds
are in range, and a panic (`.error`) otherwise, exactly as the Rust indexing
operation used at `src/src/main.rs` lines 218-219 and 231-232 would. -/
def sliceBytes (s : List Char) (a b : Nat) : Except Unit (List Char) :=
  if a ≤ b ∧ b ≤ s.length then .ok ((s.drop a).take (b - a)) else .error ()

/-- Embeds `process_record_pair` from `src/src/main.rs` lines 195-246.
`.ok none` is the filtered outcome (`None` in Rust), `.ok (some _)` the
successful triple, `.error ()` a panic from an out-of-range slice. -/
def process_record_pair (r1 r2 : FastqRecord) : Except Unit (Option ProcessedRecord) :=
  if r2.sequence.length ≠ 166 then .ok none
  else
    let r1_base := extract_base_header r1.header
    let r2_base := extract_base_header r2.header
    if r1_base ≠ r2_base then .ok none
    else
      let r1_out : FastqRecord := ⟨r1_base, r1.sequence, r1.plus, r1.quality⟩
      match sliceBytes r2.sequence 150 166 with
      | .error e => .error e
      | .ok r2_seq =>
        match sliceBytes r2.quality 150 166 with
        | .error e => .error e
        | .ok r2_qual =>
          let r2_out : FastqRecord :=
            ⟨r1_base, Bin.reverse_complement r2_seq, r2.plus, r2_qual.reverse⟩
          match sliceBytes r2.sequence 0 150 with
          | .error e => .error e
          | .ok r3_seq =>
            match sliceBytes r2.quality 0 150 with
            | .error e => .error e
            | .ok r3_qual =>
              .ok (some ⟨r1_out, r2_out, ⟨r1_base, r3_seq, r2.plus, r3_qual⟩⟩)

/-- Embeds `process_batch` from `src/src/main.rs` lines 248-258 applied to the
zipped pair list: pairs are transformed in order, filtered pairs dropped, and
a panic in any pair aborts the batch. -/
def process_pairs : List (FastqRecord × FastqRecord) → Except Unit (List ProcessedRecord)
  | [] => .ok []
  | (a, b) :: rest =>
    match process_record_pair a b with
    | .error e => .error e
    | .ok none => process_pairs rest
    | .ok (some pr) =>
      match process_pairs rest with
      | .error e => .error e
      | .ok l => .ok (pr :: l)

/-- The reader loop of `src/src/main.rs` lines 300-334, at record level:
each iteration takes up to `bs` records from each stream
(`read_fastq_batch`, lines 149-161); if either batch is empty the loop
breaks without sending, otherwise the batch pair is sent downstream.
`fuel` bounds the iteration count; `readerRun` supplies enough fuel. -/
def readerLoop (bs : Nat) : Nat → List FastqRecord → List FastqRecord →
    List (List FastqRecord × List FastqRecord)
  | 0, _, _ => []
  | fuel + 1, sa, sb =>
    if (sa.take bs).isEmpty ∨ (sb.take bs).isEmpty then []
    else (sa.take bs, sb.take bs) :: readerLoop bs fuel (sa.drop bs) (sb.drop bs)

/-- The batch pairs the reader thread sends downstream, for input streams
`sa` and `sb` and batch size `bs`. -/
def readerRun (bs : Nat) (sa sb : List FastqRecord) :
    List (List FastqRecord × List FastqRecord) :=
  readerLoop bs (sa.length + 1) sa sb

/-- The reader thread's `read` counter: `src/src/main.rs` lines 313-314 add
`min(r1_batch.len(), r2_batch.len())` for every batch pair sent. -/
def pairsRead : List (List FastqRecord × List FastqRecord) → Nat
  | [] => 0
  | p :: rest => min p.1.length p.2.length + pairsRead rest

/-- The worker-pool counter updates of `src/src/main.rs` lines 350-358,
summed over all batches: per batch, `processed` grows by the number of
surviving triples and `filtered` by `r2_batch.len() - processed_in_batch`.
Returns `(processed, filtered)`. -/
def workerTotals : List (List FastqRecord × List FastqRecord) → Except Unit (Nat × Nat)
  | [] => .ok (0, 0)
  | (ba, bb) :: rest =>
    match process_pairs (ba.zip bb) with
    | .error e => .error e
    | .ok results =>
      match workerTotals rest with
      | .error e => .error e
      | .ok (p, f) => .ok (results.length + p, (bb.length - results.length) + f)

/-- End-of-run statistics `(read, processed, filtered)` of one whole run of
the pipeline on two record streams. -/
def pipelineStats (bs : Nat) (sa sb : List FastqRecord) : Except Unit (Nat × Nat × Nat) :=
  let batches := readerRun bs sa sb
  match workerTotals batches with
  | .error e => .error e
  | .ok (p, f) => .ok (pairsRead batches, p, f)

/-- Rust `line.starts_with('@')` on one input line. -/
def isHeaderLine (l : List Char) : Bool :=
  match l with
  | '@' :: _ => true
  | _ => false

/-- Rust `line.starts_with('+')` on one input line. -/
def isPlusLine (l : List Char) : Bool :=
  match l with
  | '+' :: _ => true
  | _ => false

/-- The header loop of `read_fastq_record` (`src/src/main.rs` lines 104-114):
skip lines until one starting with `@`; `none` is clean end of stream. -/
def findHeader : List (List Char) → Option (List Char × List (List Char))
  | [] => none
  | l :: ls => if isHeaderLine l then some (l, ls) else findHeader ls

/-- The sequence loop of `read_fastq_record` (`src/src/main.rs` lines
117-130): concatenate lines until one starting with `+`; end of stream
before the separator is a fatal error. -/
def readSeq : List (List Char) → Except Unit (List Char × List (List Char))
  | [] => .error ()
  | l :: ls =>
    if isPlusLine l then .ok ([], ls)
    else
      match readSeq ls with
      | .error e => .error e
      | .ok (s, rest) => .ok (l ++ s, rest)

/-- The quality loop of `read_fastq_record` (`src/src/main.rs` lines
133-141): consume whole lines while the accumulated quality is shorter than
`need`; end of stream first is a fatal error. -/
def readQual (need : Nat) : List Char → List (List Char) →
    Except Unit (List Char × List (List Char))
  | acc, [] => if acc.length < need then .error () else .ok (acc, [])
  | acc, l :: ls =>
    if acc.length < need then readQual need (acc ++ l) ls else .ok (acc, l :: ls)

/-- Embeds `read_fastq_record` from `src/src/main.rs` lines 102-147 over the
stream of remaining input lines.  `.ok none` is clean end of stream,
`.ok (some (record, rest))` a parsed record plus the unconsumed lines, and
`.error ()` the fatal mid-record framing error.  The quality is truncated to
the sequence length (line 144). -/
def read_fastq_record (lines : List (List Char)) :
    Except Unit (Option (FastqRecord × List (List Char))) :=
  match findHeader lines with
  | none => .ok none
  | some (header, rest) =>
    match readSeq rest with
    | .error e => .error e
    | .ok (seq, rest2) =>
      match readQual seq.length [] rest2 with
      | .error e => .error e
      | .ok (qual, rest3) => .ok (some (⟨header, seq, ['+'], qual.take seq.length⟩, rest3))

/-- Spec-side: some input line starts with the record marker `@`. -/
def headerSeen (lines : List (List Char)) : Bool :=
  lines.any isHeaderLine

/-- Spec-side: the lines after the first header line. -/
def afterHeader (lines : List (List Char)) : List (List Char) :=
  (lines.dropWhile (fun l => !isHeaderLine l)).tail

/-- Spec-side: a separator line occurs after the first header line. -/
def sepSeen (lines : List (List Char)) : Bool :=
  (afterHeader lines).any isPlusLine

/-- Spec-side: the sequence of the record at the head of the stream — the
concatenation of the lines strictly between the first header line and the
next separator line. -/
def seqOf (lines : List (List Char)) : List Char :=
  ((afterHeader lines).takeWhile (fun l => !isPlusLine l)).flatten

/-- Spec-side: all quality characters available after the separator line. -/
def qualAvail (lines : List (List Char)) : List Char :=
  (((afterHeader lines).dropWhile (fun l => !isPlusLine l)).tail).flatten

end Scatac

namespace Scatac

theorem complement_base_default (c : Char)
    (h : ¬(c.toUpper = 'A' ∨ c.toUpper = 'T' ∨ c.toUpper = 'G' ∨ c.toUpper = 'C' ∨
      c.toUpper = 'N')) :
    Bin.complement_base c = c := by
  push_neg at h
  obtain ⟨h1, h2, h3, h4, h5⟩ := h
  unfold Bin.complement_base
  split
  all_goals simp_all

theorem complement_agree (c : Char)
    (h : c.toUpper = 'A' ∨ c.toUpper = 'T' ∨ c.toUpper = 'G' ∨ c.toUpper = 'C' ∨
      c.toUpper = 'N') :
    Lib.complement_byte c = Bin.complement_base c := by
  unfold Bin.complement_base Lib.complement_byte
  rcases h with h | h | h | h | h <;> rw [h] <;> rfl

theorem map_eq_self_of_mem {f : Char → Char} {s : List Char} (h : ∀ c ∈ s, f c = c) :
    s.map f = s := by
  induction s with
  | nil => rfl
  | cons a t ih =>
    simp only [List.map_cons, h a (List.mem_cons_self a t),
      ih (fun c hc => h c (List.mem_cons_of_mem a hc))]

theorem revcomp_revcomp (f : Char → Char) (s : List Char) :
    ((s.reverse.map f).reverse).map f = s.map (fun c => f (f c)) := by
  simp [List.map_map, Function.comp]

/-- C4 counterexample: contrary to the claim, the reverse-complement function
the pipeline uses (`reverse_complement` of `src/src/main.rs`) does not map
the out-of-alphabet character `X` to `N`; it leaves it unchanged. -/
theorem c4_counterexample : Bin.reverse_complement ("ATXGC".toList) ≠ "GCNAT".toList := by
  decide

/-- C4 amended: the pipeline's reverse-complement reverses the input and maps
each character case-insensitively by `A↔T`, `G↔C` (output uppercase), keeps
`N`/`n` as `N`, and returns every other character UNCHANGED (case preserved);
in particular `revcomp("ATXGC") = "GCXAT"`. -/
theorem c4_revcomp_behaviour (s : List Char) (c : Char) :
    Bin.reverse_complement s = (s.map Bin.complement_base).reverse ∧
    ((c = 'A' ∨ c = 'a') → Bin.complement_base c = 'T') ∧
    ((c = 'T' ∨ c = 't') → Bin.complement_base c = 'A') ∧
    ((c = 'G' ∨ c = 'g') → Bin.complement_base c = 'C') ∧
    ((c = 'C' ∨ c = 'c') → Bin.complement_base c = 'G') ∧
    ((c = 'N' ∨ c = 'n') → Bin.complement_base c = 'N') ∧
    (¬(c.toUpper = 'A' ∨ c.toUpper = 'T' ∨ c.toUpper = 'G' ∨ c.toUpper = 'C' ∨
        c.toUpper = 'N') → Bin.complement_base c = c) ∧
    Bin.reverse_complement ("ATXGC".toList) = "GCXAT".toList := by
  refine ⟨by simp [Bin.reverse_complement], ?_, ?_, ?_, ?_, ?_,
    complement_base_default c, by decide⟩
  all_goals rintro (rfl | rfl) <;> decide

theorem c4_revcomp_behaviour_witness :
    Bin.complement_base 'a' = 'T' ∧ Bin.complement_base 'x' = 'x' := by
  refine ⟨(c4_revcomp_behaviour [] 'a').2.1 (Or.inr rfl), ?_⟩
  exact (c4_revcomp_behaviour [] 'x').2.2.2.2.2.2.1 (by decide)

/-- C5 counterexample: the two reverse-complement implementations disagree:
on input `X` the library maps the byte to `N` while the binary's version
returns `X` unchanged. -/
theorem c5_counterexample :
    Lib.reverse_complement ("X".toList) ≠ Bin.reverse_complement ("X".toList) := by
  decide

/-- C5 amended: the two implementations agree on every string whose
characters are all, case-insensitively, among `A`, `T`, `G`, `C`, `N`;
they differ on any other character (e.g. `X`). -/
theorem c5_revcomp_agreement (s : List Char)
    (h : ∀ c ∈ s, c.toUpper = 'A' ∨ c.toUpper = 'T' ∨ c.toUpper = 'G' ∨ c.toUpper = 'C' ∨
      c.toUpper = 'N') :
    Lib.reverse_complement s = Bin.reverse_complement s := by
  unfold Lib.reverse_complement Bin.reverse_complement
  exact List.map_congr_left fun c hc => complement_agree c (h c (List.mem_reverse.mp hc))

theorem c5_revcomp_agreement_witness :
    Lib.reverse_complement ("acgtn".toList) = Bin.reverse_complement ("acgtn".toList) :=
  c5_revcomp_agreement ("acgtn".toList) (by decide)

/-- C6 counterexample: reverse-complement is not an involution on lowercase
canonical bases: both implementations send `"a"` to `"T"` and then to `"A"`,
not back to `"a"`. -/
theorem c6_counterexample :
    Bin.reverse_complement (Bin.reverse_complement ("a".toList)) ≠ "a".toList ∧
    Lib.reverse_complement (Lib.reverse_complement ("a".toList)) ≠ "a".toList := by
  decide

/-- C6 amended: reverse-complement (either implementation) is an involution
on strings of UPPERCASE canonical bases `A`, `T`, `G`, `C`; on lowercase
input the double application yields the uppercased string instead. -/
theorem c6_revcomp_involution (s : List Char)
    (h : ∀ c ∈ s, c = 'A' ∨ c = 'T' ∨ c = 'G' ∨ c = 'C') :
    Bin.reverse_complement (Bin.reverse_complement s) = s ∧
    Lib.reverse_complement (Lib.reverse_complement s) = s := by
  constructor
  · unfold Bin.reverse_complement
    rw [revcomp_revcomp]
    exact map_eq_self_of_mem fun c hc => by
      rcases h c hc with rfl | rfl | rfl | rfl <;> rfl
  · unfold Lib.reverse_complement
    rw [revcomp_revcomp]
    exact map_eq_self_of_mem fun c hc => by
      rcases h c hc with rfl | rfl | rfl | rfl <;> rfl

theorem c6_revcomp_involution_witness :
    Bin.reverse_complement (Bin.reverse_complement ("ACGT".toList)) = "ACGT".toList ∧
    Lib.reverse_complement (Lib.reverse_complement ("ACGT".toList)) = "ACGT".toList :=
  c6_revcomp_involution ("ACGT".toList) (by decide)

/-- C7 counterexample: header base-extraction is not idempotent: stripping
`"a/1/1"` once yields `"a/1"`, and stripping that again yields `"a"`. -/
theorem c7_counterexample :
    extract_base_header (extract_base_header ("a/1/1".toList)) ≠
      extract_base_header ("a/1/1".toList) := by
  decide

/-- C7 amended: stripping is a no-op on any header whose stripped form does
not itself end in `/1` or `/2` (so a second strip changes nothing there),
but on headers with a doubled pair-suffix such as `"a/1/1"` a second strip
removes a second suffix; `strip("id/1") = strip("id/2") = "id"` holds. -/
theorem c7_strip_conditional_idempotent (h : List Char)
    (hs : endsWithPair (extract_base_header h) = false) :
    extract_base_header (extract_base_header h) = extract_base_header h ∧
    extract_base_header ("id/1".toList) = "id".toList ∧
    extract_base_header ("id/2".toList) = "id".toList := by
  refine ⟨?_, by decide, by decide⟩
  generalize extract_base_header h = x at hs
  simp [extract_base_header, hs]

theorem c7_strip_conditional_idempotent_witness :
    extract_base_header (extract_base_header ("ab/1".toList)) =
      extract_base_header ("ab/1".toList) :=
  (c7_strip_conditional_idempotent ("ab/1".toList) (by decide)).1

end Scatac

namespace Scatac

theorem process_record_pair_len_filter (r1 r2 : FastqRecord)
    (h : r2.sequence.length ≠ 166) : process_record_pair r1 r2 = .ok none := by
  unfold process_record_pair
  rw [if_pos h]

theorem process_record_pair_base_filter (r1 r2 : FastqRecord)
    (h : extract_base_header r1.header ≠ extract_base_header r2.header) :
    process_record_pair r1 r2 = .ok none := by
  unfold process_record_pair
  by_cases h166 : r2.sequence.length ≠ 166
  · rw [if_pos h166]
  · rw [if_neg h166, if_pos h]

theorem process_record_pair_success (r1 r2 : FastqRecord)
    (h166 : r2.sequence.length = 166)
    (hq : r2.quality.length = r2.sequence.length)
    (hb : extract_base_header r1.header = extract_base_header r2.header) :
    process_record_pair r1 r2 = .ok (some
      ⟨⟨extract_base_header r1.header, r1.sequence, r1.plus, r1.quality⟩,
       ⟨extract_base_header r1.header,
        Bin.reverse_complement ((r2.sequence.drop 150).take 16), r2.plus,
        ((r2.quality.drop 150).take 16).reverse⟩,
       ⟨extract_base_header r1.header, r2.sequence.take 150, r2.plus,
        r2.quality.take 150⟩⟩) := by
  have hq166 : r2.quality.length = 166 := by omega
  unfold process_record_pair
  rw [if_neg (by omega)]
  rw [if_neg (by simp [hb])]
  simp [sliceBytes, h166, hq166, hb]

end Scatac

namespace Scatac

/-- C2: for a record pair whose combined sequence has length 166 and whose
base identities agree (with the Record invariant `len(quality) = len(sequence)`
on the combined record), the transform yields exactly one triple: all three
headers are the primary's base identity, `out_a` keeps the primary's sequence
and quality, `out_c` is the first 150 bases/qualities unchanged, `out_b` is
the reverse complement of the last 16 bases with the last 16 quality
characters reversed unmodified. -/
theorem c2_transform_valid_pair (r1 r2 : FastqRecord)
    (h166 : r2.sequence.length = 166)
    (hq : r2.quality.length = r2.sequence.length)
    (hb : extract_base_header r1.header = extract_base_header r2.header) :
    process_record_pair r1 r2 = .ok (some
      ⟨⟨extract_base_header r1.header, r1.sequence, r1.plus, r1.quality⟩,
       ⟨extract_base_header r1.header,
        Bin.reverse_complement ((r2.sequence.drop 150).take 16), r2.plus,
        ((r2.quality.drop 150).take 16).reverse⟩,
       ⟨extract_base_header r1.header, r2.sequence.take 150, r2.plus,
        r2.quality.take 150⟩⟩) :=
  process_record_pair_success r1 r2 h166 hq hb

theorem c2_transform_valid_pair_witness :
    process_record_pair
      ⟨"@x/1".toList, "ACGT".toList, "+".toList, "FFFF".toList⟩
      ⟨"@x/2".toList, List.replicate 150 'A' ++ List.replicate 16 'C', "+".toList,
        List.replicate 150 'F' ++ List.replicate 16 'J'⟩ = .ok (some
      ⟨⟨"@x".toList, "ACGT".toList, "+".toList, "FFFF".toList⟩,
       ⟨"@x".toList, List.replicate 16 'G', "+".toList, List.replicate 16 'J'⟩,
       ⟨"@x".toList, List.replicate 150 'A', "+".toList, List.replicate 150 'F'⟩⟩) := by
  have h := c2_transform_valid_pair
      ⟨"@x/1".toList, "ACGT".toList, "+".toList, "FFFF".toList⟩
      ⟨"@x/2".toList, List.replicate 150 'A' ++ List.replicate 16 'C', "+".toList,
        List.replicate 150 'F' ++ List.replicate 16 'J'⟩ (by simp) (by simp) (by decide)
  exact h.trans (by rfl)

/-- C3: with the Record invariant on the combined record, the transform is
filtered (`None`) exactly when the combined sequence length differs from 166
or the two base identities differ, and any pair passing both checks yields a
triple. -/
theorem c3_filter_iff (r1 r2 : FastqRecord)
    (hq : r2.quality.length = r2.sequence.length) :
    (process_record_pair r1 r2 = .ok none ↔
      (r2.sequence.length ≠ 166 ∨
        extract_base_header r1.header ≠ extract_base_header r2.header)) ∧
    ((r2.sequence.length = 166 ∧
      extract_base_header r1.header = extract_base_header r2.header) →
      ∃ t, process_record_pair r1 r2 = .ok (some t)) := by
  constructor
  · constructor
    · intro hnone
      by_contra hcon
      push_neg at hcon
      obtain ⟨h166, hb⟩ := hcon
      rw [process_record_pair_success r1 r2 h166 hq hb] at hnone
      simp at hnone
    · rintro (h | h)
      · exact process_record_pair_len_filter r1 r2 h
      · exact process_record_pair_base_filter r1 r2 h
  · rintro ⟨h166, hb⟩
    exact ⟨_, process_record_pair_success r1 r2 h166 hq hb⟩

theorem c3_filter_iff_witness :
    process_record_pair ⟨"@a".toList, "A".toList, "+".toList, "F".toList⟩
      ⟨"@b".toList, "ACG".toList, "+".toList, "FFF".toList⟩ = .ok none :=
  ((c3_filter_iff ⟨"@a".toList, "A".toList, "+".toList, "F".toList⟩
      ⟨"@b".toList, "ACG".toList, "+".toList, "FFF".toList⟩ (by decide)).1).mpr
    (Or.inl (by decide))

/-- C10: for record pairs satisfying the Record invariant
`len(quality) = len(sequence)` on both records and whose combined sequence
has length 166, the transform is total: every slice access is in range and
no panic branch (`.error`) is reachable. -/
theorem c10_transform_total (r1 r2 : FastqRecord)
    (_h1 : r1.quality.length = r1.sequence.length)
    (h2 : r2.quality.length = r2.sequence.length)
    (h166 : r2.sequence.length = 166) :
    ∃ v, process_record_pair r1 r2 = .ok v := by
  by_cases hb : extract_base_header r1.header = extract_base_header r2.header
  · exact ⟨_, process_record_pair_success r1 r2 h166 h2 hb⟩
  · exact ⟨none, process_record_pair_base_filter r1 r2 hb⟩

theorem c10_transform_total_witness :
    ∃ v, process_record_pair ⟨"@p".toList, "AC".toList, "+".toList, "FF".toList⟩
      ⟨"@q".toList, List.replicate 166 'A', "+".toList, List.replicate 166 'F'⟩ = .ok v :=
  c10_transform_total ⟨"@p".toList, "AC".toList, "+".toList, "FF".toList⟩
    ⟨"@q".toList, List.replicate 166 'A', "+".toList, List.replicate 166 'F'⟩
    (by decide) (by simp) (by simp)

end Scatac

namespace Scatac

theorem readerLoop_ne_nil {bs fuel : Nat} {sa sb : List FastqRecord}
    (h : readerLoop bs fuel sa sb ≠ []) : sa.take bs ≠ [] ∧ sb.take bs ≠ [] := by
  cases fuel with
  | zero => simp [readerLoop] at h
  | succ n =>
    unfold readerLoop at h
    split at h
    · simp at h
    · rename_i hcond
      push_neg at hcond
      constructor
      · exact fun hnil => hcond.1 (by simp [hnil])
      · exact fun hnil => hcond.2 (by simp [hnil])

theorem readerLoop_mem {bs fuel : Nat} {sa sb : List FastqRecord} :
    ∀ p ∈ readerLoop bs fuel sa sb,
      p.1 ≠ [] ∧ p.2 ≠ [] ∧ p.1.length ≤ bs ∧ p.2.length ≤ bs := by
  induction fuel generalizing sa sb with
  | zero => intro p hp; simp [readerLoop] at hp
  | succ n ih =>
    intro p hp
    unfold readerLoop at hp
    split at hp
    · simp at hp
    · rename_i hcond
      push_neg at hcond
      rcases List.mem_cons.mp hp with rfl | hmem
      · refine ⟨by simpa using hcond.1, by simpa using hcond.2, ?_, ?_⟩ <;>
          exact List.length_take_le _ _
      · exact ih _ hmem

theorem readerLoop_full_of_not_last {bs fuel : Nat} {sa sb : List FastqRecord} :
    ∀ p ∈ (readerLoop bs fuel sa sb).dropLast, p.1.length = bs ∧ p.2.length = bs := by
  induction fuel generalizing sa sb with
  | zero => intro p hp; simp [readerLoop] at hp
  | succ n ih =>
    intro p hp
    unfold readerLoop at hp
    split at hp
    · simp at hp
    · cases hrest : readerLoop bs n (sa.drop bs) (sb.drop bs) with
      | nil => rw [hrest] at hp; simp at hp
      | cons q qs =>
        rw [hrest, List.dropLast_cons₂] at hp
        rcases List.mem_cons.mp hp with rfl | hmem
        · obtain ⟨hta, htb⟩ := readerLoop_ne_nil (by rw [hrest]; exact List.cons_ne_nil q qs)
          have hda : ¬ (sa.drop bs = []) := fun hnil => hta (by simp [hnil])
          have hdb : ¬ (sb.drop bs = []) := fun hnil => htb (by simp [hnil])
          rw [List.drop_eq_nil_iff] at hda hdb
          constructor <;> simp <;> omega
        · rw [← hrest] at hmem
          exact ih _ hmem

theorem readerLoop_pairsRead {bs : Nat} (hbs : 1 ≤ bs) :
    ∀ (fuel : Nat) (sa sb : List FastqRecord), sa.length < fuel →
      pairsRead (readerLoop bs fuel sa sb) = min sa.length sb.length := by
  intro fuel
  induction fuel with
  | zero => intro sa sb h; omega
  | succ n ih =>
    intro sa sb hlen
    unfold readerLoop
    split
    · rename_i hcond
      have : sa = [] ∨ sb = [] := by
        rcases hcond with h | h
        · rcases List.take_eq_nil_iff.mp (List.isEmpty_iff.mp h) with h0 | h0
          · omega
          · exact Or.inl h0
        · rcases List.take_eq_nil_iff.mp (List.isEmpty_iff.mp h) with h0 | h0
          · omega
          · exact Or.inr h0
      rcases this with rfl | rfl <;> simp [pairsRead]
    · rename_i hcond
      push_neg at hcond
      have hsa : sa ≠ [] := fun hnil => by simp [hnil] at hcond
      have hlen1 : 1 ≤ sa.length := by
        cases sa with
        | nil => exact absurd rfl hsa
        | cons a t => simp
      rw [pairsRead, ih (sa.drop bs) (sb.drop bs) (by simp; omega)]
      simp [List.length_take, List.length_drop]
      omega

end Scatac

namespace Scatac

/-- C8 counterexample: with batch size 2, a one-record primary stream and a
two-record combined stream, the single batch pair the reader sends downstream
has components of UNEQUAL lengths (1 and 2): the reader does not stop at the
end of the shorter stream within a batch, it pairs a partial batch with a
fuller one. -/
theorem c8_counterexample :
    readerRun 2 [⟨['a'], ['A'], ['+'], ['F']⟩]
        [⟨['b'], ['C'], ['+'], ['F']⟩, ⟨['c'], ['G'], ['+'], ['F']⟩] =
      [([⟨['a'], ['A'], ['+'], ['F']⟩],
        [⟨['b'], ['C'], ['+'], ['F']⟩, ⟨['c'], ['G'], ['+'], ['F']⟩])] ∧
    ([⟨['a'], ['A'], ['+'], ['F']⟩] : List FastqRecord).length ≠
      ([⟨['b'], ['C'], ['+'], ['F']⟩, ⟨['c'], ['G'], ['+'], ['F']⟩] :
        List FastqRecord).length := by
  constructor
  · rfl
  · decide

/-- C8 amended: for batch size at least 1, every batch pair the reader sends
downstream has both components nonempty and of length at most the batch
size; every sent batch except possibly the last has both components of
length exactly the batch size (the final batch may pair components of
different lengths when one stream is exhausted mid-batch, and trailing
records of the longer stream that would pair with an empty batch are
dropped, not flushed); the total number of pairs sent downstream — counting
the minimum of the two component lengths per batch, exactly as the reader's
own `read` counter does — equals `min(len(stream_a), len(stream_b))`. -/
theorem c8_reader_batches (bs : Nat) (sa sb : List FastqRecord) (hbs : 1 ≤ bs) :
    (∀ p ∈ readerRun bs sa sb,
      p.1 ≠ [] ∧ p.2 ≠ [] ∧ p.1.length ≤ bs ∧ p.2.length ≤ bs) ∧
    (∀ p ∈ (readerRun bs sa sb).dropLast, p.1.length = bs ∧ p.2.length = bs) ∧
    pairsRead (readerRun bs sa sb) = min sa.length sb.length := by
  refine ⟨readerLoop_mem, readerLoop_full_of_not_last, ?_⟩
  exact readerLoop_pairsRead hbs (sa.length + 1) sa sb (Nat.lt_succ_self _)

theorem c8_reader_batches_witness :
    pairsRead (readerRun 2 [⟨['d'], ['A'], ['+'], ['F']⟩]
      [⟨['e'], ['C'], ['+'], ['F']⟩, ⟨['f'], ['G'], ['+'], ['F']⟩]) = 1 := by
  have h := (c8_reader_batches 2 [⟨['d'], ['A'], ['+'], ['F']⟩]
    [⟨['e'], ['C'], ['+'], ['F']⟩, ⟨['f'], ['G'], ['+'], ['F']⟩] (by decide)).2.2
  exact h.trans (by decide)

/-- C1 (code bug witness): evaluating the pipeline statistics on a
one-record primary stream and a two-record combined stream with batch size
2: the reader counts `read = min(1, 2) = 1` pair, but the worker counts the
whole combined batch — `processed = 0` and `filtered = 2` here — so
`processed + filtered = 2 ≠ 1 = read`, violating the claimed invariant. -/
theorem c1_stats_divergence :
    pipelineStats 2 [⟨"@a/1".toList, "A".toList, "+".toList, "F".toList⟩]
      [⟨"@a/2".toList, "ACG".toList, "+".toList, "FFF".toList⟩,
       ⟨"@b/2".toList, "ACG".toList, "+".toList, "FFF".toList⟩] = .ok (1, 0, 2) := by
  rfl

end Scatac

namespace Scatac

theorem findHeader_eq_none_iff {lines : List (List Char)} :
    findHeader lines = none ↔ headerSeen lines = false := by
  induction lines with
  | nil => simp [findHeader, headerSeen]
  | cons l ls ih =>
    by_cases hl : isHeaderLine l <;> simp [findHeader, headerSeen, hl, ih]

theorem findHeader_eq_some {lines rest : List (List Char)} {l : List Char}
    (h : findHeader lines = some (l, rest)) : rest = afterHeader lines := by
  induction lines with
  | nil => simp [findHeader] at h
  | cons a ls ih =>
    by_cases ha : isHeaderLine a
    · rw [findHeader, if_pos ha] at h
      obtain ⟨rfl, rfl⟩ := by simpa using h
      simp [afterHeader, List.dropWhile_cons, ha]
    · rw [findHeader, if_neg ha] at h
      rw [ih h, afterHeader, afterHeader, List.dropWhile_cons]
      simp [ha]

theorem readSeq_eq_error_iff {ls : List (List Char)} :
    readSeq ls = .error () ↔ ls.any isPlusLine = false := by
  induction ls with
  | nil => simp [readSeq]
  | cons l ls ih =>
    by_cases hl : isPlusLine l
    · simp [readSeq, hl]
    · rw [readSeq, if_neg hl]
      cases hrec : readSeq ls with
      | error e => simpa [hrec, hl] using ih
      | ok p =>
        have hany : ls.any isPlusLine = true := by
          cases hA : ls.any isPlusLine
          · exact absurd (ih.mpr hA) (by simp [hrec])
          · rfl
        simp [hrec, hl, hany]

theorem readSeq_eq_ok {ls rest : List (List Char)} {s : List Char}
    (h : readSeq ls = .ok (s, rest)) :
    s = (ls.takeWhile (fun l => !isPlusLine l)).flatten ∧
    rest = (ls.dropWhile (fun l => !isPlusLine l)).tail := by
  induction ls generalizing s with
  | nil => simp [readSeq] at h
  | cons l ls ih =>
    by_cases hl : isPlusLine l
    · rw [readSeq, if_pos hl] at h
      obtain ⟨rfl, rfl⟩ := by simpa using h
      simp [List.takeWhile_cons, List.dropWhile_cons, hl]
    · rw [readSeq, if_neg hl] at h
      cases hrec : readSeq ls with
      | error e => rw [hrec] at h; simp at h
      | ok p =>
        obtain ⟨s', rest'⟩ := p
        rw [hrec] at h
        obtain ⟨rfl, rfl⟩ := by simpa using h
        obtain ⟨ihs, ihr⟩ := ih hrec
        constructor
        · rw [List.takeWhile_cons]
          simp [hl, ihs]
        · rw [List.dropWhile_cons]
          simp [hl, ihr]

theorem readQual_eq_error_iff {need : Nat} :
    ∀ {ls : List (List Char)} {acc : List Char},
      readQual need acc ls = .error () ↔ acc.length + ls.flatten.length < need := by
  intro ls
  induction ls with
  | nil =>
    intro acc
    rw [readQual]
    by_cases hlt : acc.length < need <;> simp [hlt]
  | cons l ls ih =>
    intro acc
    rw [readQual]
    by_cases hlt : acc.length < need
    · rw [if_pos hlt, ih]
      simp
      omega
    · rw [if_neg hlt]
      simp
      omega

theorem readQual_eq_ok {need : Nat} :
    ∀ {ls rest : List (List Char)} {acc q : List Char},
      readQual need acc ls = .ok (q, rest) →
        need ≤ q.length ∧ q.take need = (acc ++ ls.flatten).take need := by
  intro ls
  induction ls with
  | nil =>
    intro rest acc q h
    rw [readQual] at h
    by_cases hlt : acc.length < need
    · rw [if_pos hlt] at h; simp at h
    · rw [if_neg hlt] at h
      obtain ⟨rfl, rfl⟩ := by simpa using h
      refine ⟨by omega, by simp⟩
  | cons l ls ih =>
    intro rest acc q h
    rw [readQual] at h
    by_cases hlt : acc.length < need
    · rw [if_pos hlt] at h
      obtain ⟨h1, h2⟩ := ih h
      exact ⟨h1, by rw [h2]; simp [List.append_assoc]⟩
    · rw [if_neg hlt] at h
      obtain ⟨rfl, rfl⟩ := by simpa using h
      refine ⟨by omega, ?_⟩
      rw [List.take_append_of_le_length (by omega)]

end Scatac

namespace Scatac

/-- C9: reading one record errors exactly when the stream ends mid-record:
either a header line was seen but no separator line follows it, or the
quality characters available after the separator never reach the sequence
length.  A stream with no header line gives a clean end of stream.  On
success the record's quality is the available quality truncated to the
sequence length (so excess quality characters are discarded). -/
theorem c9_record_framing (lines : List (List Char)) :
    (read_fastq_record lines = .ok none ↔ headerSeen lines = false) ∧
    (read_fastq_record lines = .error () ↔
      (headerSeen lines = true ∧ (sepSeen lines = false ∨
        (qualAvail lines).length < (seqOf lines).length))) ∧
    (∀ rec rest, read_fastq_record lines = .ok (some (rec, rest)) →
      rec.sequence = seqOf lines ∧
      rec.quality = (qualAvail lines).take (seqOf lines).length ∧
      rec.quality.length = rec.sequence.length) := by
  cases hfh : findHeader lines with
  | none =>
    have hhs : headerSeen lines = false := findHeader_eq_none_iff.mp hfh
    unfold read_fastq_record
    rw [hfh]
    simp [hhs]
  | some pr =>
    obtain ⟨hdr, rest⟩ := pr
    have hrest : rest = afterHeader lines := findHeader_eq_some hfh
    have hhs : headerSeen lines = true := by
      cases hH : headerSeen lines
      · exact absurd (findHeader_eq_none_iff.mpr hH) (by simp [hfh])
      · rfl
    unfold read_fastq_record
    rw [hfh]
    dsimp only
    cases hrs : readSeq rest with
    | error e =>
      cases e
      dsimp only
      have hsep : sepSeen lines = false := by
        rw [sepSeen, ← hrest]
        exact readSeq_eq_error_iff.mp hrs
      simp [hhs, hsep]
    | ok p =>
      obtain ⟨seq, rest2⟩ := p
      obtain ⟨hseq, hrest2⟩ := readSeq_eq_ok hrs
      dsimp only
      have hsep : sepSeen lines = true := by
        rw [sepSeen, ← hrest]
        cases hA : rest.any isPlusLine
        · exact absurd (readSeq_eq_error_iff.mpr hA) (by simp [hrs])
        · rfl
      have hseqOf : seqOf lines = seq := by
        rw [seqOf, ← hrest, hseq]
      have hqa : qualAvail lines = rest2.flatten := by
        rw [qualAvail, ← hrest, ← hrest2]
      cases hrq : readQual seq.length [] rest2 with
      | error e =>
        cases e
        dsimp only
        have hlt : rest2.flatten.length < seq.length := by
          have := readQual_eq_error_iff.mp hrq
          simpa using this
        refine ⟨by simp [hhs], ?_, by intro rec r h; simp at h⟩
        simp only [hhs, hseqOf, hqa, true_and]
        constructor
        · intro _
          exact Or.inr hlt
        · intro _
          exact trivial
      | ok p2 =>
        obtain ⟨qual, rest3⟩ := p2
        obtain ⟨hql, hqt⟩ := readQual_eq_ok hrq
        dsimp only
        have hnotlt : ¬ (rest2.flatten.length < seq.length) := by
          intro hlt
          have herr : readQual seq.length ([] : List Char) rest2 = .error () :=
            readQual_eq_error_iff.mpr (by simpa using hlt)
          rw [hrq] at herr
          exact absurd herr (by simp)
        refine ⟨by simp [hhs], ?_, ?_⟩
        · simp only [hhs, hseqOf, hqa, hsep, true_and]
          constructor
          · intro h
            exact absurd h (by simp)
          · rintro (h | h)
            · exact absurd h (by simp)
            · exact absurd h hnotlt
        · intro rec rest' h
          simp only [Except.ok.injEq, Option.some.injEq, Prod.mk.injEq] at h
          obtain ⟨⟨rfl, rfl⟩⟩ := h
          refine ⟨by simp [hseqOf], ?_, by simp; omega⟩
          simp only [hseqOf, hqa]
          rw [hqt]
          simp

theorem c9_record_framing_witness :
    ("ACG".toList : List Char) =
      seqOf [['x'], "@h".toList, "ACG".toList, ['+'], "II".toList, "JJ".toList] ∧
    ("IIJ".toList : List Char) =
      (qualAvail [['x'], "@h".toList, "ACG".toList, ['+'], "II".toList, "JJ".toList]).take
        (seqOf [['x'], "@h".toList, "ACG".toList, ['+'], "II".toList, "JJ".toList]).length ∧
    ("IIJ".toList : List Char).length = ("ACG".toList : List Char).length := by
  have h := (c9_record_framing
      [['x'], "@h".toList, "ACG".toList, ['+'], "II".toList, "JJ".toList]).2.2
      ⟨"@h".toList, "ACG".toList, ['+'], "IIJ".toList⟩ [] (by rfl)
  exact h

end Scatac
